import Mathlib

/-!
Verification of the markdown code-block dedenting utilities and small helper
functions of the `wiwik` forum repository (`forum/common/utils.py`,
`forum/wiwik_lib/templatetags/wiwik_template_tags.py`).

Python strings are modelled as `List Char`; `str.split('\n')` and
`'\n'.join` are modelled by `splitNL` / `joinNL` below, and the mutation of
the Python line list is modelled by explicit list-rebuilding functions.
-/

/-- `sys.maxsize` on a 64-bit CPython build. -/
def maxsize : Int := 9223372036854775807

/-- Characters for which Python's `str.isspace` is true (the set stripped by
`str.lstrip()` with no argument): ASCII whitespace, the information
separators, NEL, NBSP and the Unicode space characters. -/
def pyIsSpace (c : Char) : Bool :=
  c.val ∈ [9, 10, 11, 12, 13, 28, 29, 30, 31, 32, 0x85, 0xa0, 0x1680,
    0x2000, 0x2001, 0x2002, 0x2003, 0x2004, 0x2005, 0x2006, 0x2007,
    0x2008, 0x2009, 0x200a, 0x2028, 0x2029, 0x202f, 0x205f, 0x3000]

/-- `line.lstrip()`: remove the leading whitespace run. -/
def lstrip (l : List Char) : List Char := l.dropWhile pyIsSpace

/-- `len(line) - len(line.lstrip())`: the length of the leading whitespace
run of a line, exactly as computed in `_dedent_code_block`. -/
def leadWS (l : List Char) : Nat := l.length - (lstrip l).length

/-- The backtick character. -/
def backtick : Char := Char.ofNat 96

/-- Does the list start with three backticks? -/
def startsTriple : List Char → Bool
  | c1 :: c2 :: c3 :: _ => c1 == backtick && c2 == backtick && c3 == backtick
  | _ => false

/-- Index of the first occurrence of the triple-backtick substring, if any
(`line.find('```')` when the result is nonnegative). -/
def find3 : List Char → Option Nat
  | [] => none
  | c :: t => if startsTriple (c :: t) then some 0 else (find3 t).map Nat.succ

/-- Python `line.find('```')`: first index of the substring, `-1` if absent. -/
def pyFind3 (l : List Char) : Int :=
  match find3 l with
  | some n => (n : Int)
  | none => -1

/-- Python `'```' in line`. -/
def hasTriple (l : List Char) : Bool := (find3 l).isSome

/-- Python `s[d:]` for an arbitrary (possibly negative) integer `d`. -/
def pySliceFrom (l : List Char) (d : Int) : List Char :=
  if 0 ≤ d then l.drop d.toNat else l.drop ((l.length : Int) + d).toNat

/-- Python `range(s, e)` as a list of indices. -/
def pyRange (s e : Nat) : List Nat := List.range' s (e - s)

/-- `markdown_text.split('\n')`. -/
def splitNL : List Char → List (List Char)
  | [] => [[]]
  | c :: t =>
    if c = '\n' then [] :: splitNL t
    else
      match splitNL t with
      | l :: ls => (c :: l) :: ls
      | [] => [[c]]

/-- `'\n'.join(lines)`. -/
def joinNL : List (List Char) → List Char
  | [] => []
  | [l] => l
  | l :: ls => l ++ '\n' :: joinNL ls

/-- The accumulating loop of `_find_code_blocks`: `i` is the index of the
first line of the remaining list, `st` the pending unmatched opening fence. -/
def findCodeBlocksAux : List (List Char) → Nat → Option Nat → List (Nat × Nat)
  | [], _, _ => []
  | l :: t, i, st =>
    if hasTriple l then
      match st with
      | none => findCodeBlocksAux t (i + 1) (some i)
      | some a => (a, i) :: findCodeBlocksAux t (i + 1) none
    else findCodeBlocksAux t (i + 1) st

/-- `_find_code_blocks(markdown_text_lines)`. -/
def findCodeBlocks (lines : List (List Char)) : List (Nat × Nat) :=
  findCodeBlocksAux lines 0 none

/-- The indices (offset by `i`) of the lines containing a triple backtick, in
document order: the fence markers. -/
def markersAux : List (List Char) → Nat → List Nat
  | [], _ => []
  | l :: t, i =>
    if hasTriple l then i :: markersAux t (i + 1) else markersAux t (i + 1)

/-- Pair a list of marker indices by strict alternation: the 1st opens, the
2nd closes, the 3rd opens, …; a final unmatched element is discarded. -/
def pairUp : List Nat → List (Nat × Nat)
  | a :: b :: rest => (a, b) :: pairUp rest
  | _ => []

/-- The `line_start` loop of `_dedent_code_block`: minimum of the leading
whitespace runs of the lines strictly between the fences, starting from
`sys.maxsize`. -/
def lineStartOf (lines : List (List Char)) (a b : Nat) : Int :=
  (pyRange (a + 1) b).foldl
    (fun acc i => min acc ((leadWS (lines.getD i []) : Nat) : Int)) maxsize

/-- The `dedent_chars` value computed by `_dedent_code_block` for the span
`(a, b)`: `max(line_start, 0) - lines[a].find('```')`. -/
def dedentChars (lines : List (List Char)) (a b : Nat) : Int :=
  max (lineStartOf lines a b) 0 - pyFind3 (lines.getD a [])

/-- Apply `l[d:]` to every line whose index (starting at `i0`) lies strictly
between `a` and `b`. -/
def sliceRange (a b : Nat) (d : Int) : Nat → List (List Char) → List (List Char)
  | _, [] => []
  | i, l :: rest =>
    (if a < i ∧ i < b then pySliceFrom l d else l) :: sliceRange a b d (i + 1) rest

/-- `_dedent_code_block(lines, a, b)`: the new value of the line list. -/
def dedentBlock (lines : List (List Char)) (a b : Nat) : List (List Char) :=
  if dedentChars lines a b = 0 then lines
  else sliceRange a b (dedentChars lines a b) 0 lines

/-- The loop of `dedent_code` over all found code block sections. -/
def dedentLines (lines : List (List Char)) : List (List Char) :=
  (findCodeBlocks lines).foldl (fun acc p => dedentBlock acc p.1 p.2) lines

/-- `dedent_code(markdown_text)`. -/
def dedent_code (s : List Char) : List Char :=
  joinNL (dedentLines (splitNL s))

/-- The `line_start` loop of `_dedent_code_block` with every `lines[i]`
access modelled fallibly: an out-of-range index yields `none` (a Python
`IndexError`). -/
def minLoopOpt (lines : List (List Char)) : List Nat → Int → Option Int
  | [], acc => some acc
  | i :: rest, acc =>
    match lines.get? i with
    | none => none
    | some l => minLoopOpt lines rest (min acc ((leadWS l : Nat) : Int))

/-- The assignment loop `lines[i] = lines[i][dedent_chars:]` of
`_dedent_code_block` with every access modelled fallibly. -/
def setLoopOpt (lines : List (List Char)) (d : Int) : List Nat → Option (List (List Char))
  | [] => some lines
  | i :: rest =>
    match lines.get? i with
    | none => none
    | some l => setLoopOpt (lines.set i (pySliceFrom l d)) d rest

/-- `_dedent_code_block(lines, a, b)` with every list subscript modelled
fallibly: returns `none` exactly when some access would raise. -/
def dedentBlockOpt (lines : List (List Char)) (a b : Nat) : Option (List (List Char)) :=
  match lines.get? a with
  | none => none
  | some fenceLine =>
    match minLoopOpt lines (pyRange (a + 1) b) maxsize with
    | none => none
    | some ls0 =>
      let d := max ls0 0 - pyFind3 fenceLine
      if d = 0 then some lines else setLoopOpt lines d (pyRange (a + 1) b)

/-- The span loop of `dedent_code` over the fallible block transformer. -/
def dedentLinesOpt (lines : List (List Char)) : Option (List (List Char)) :=
  (findCodeBlocks lines).foldl
    (fun acc p => acc.bind fun ls => dedentBlockOpt ls p.1 p.2) (some lines)

/-- `dedent_code(markdown_text)` with all list subscripts modelled fallibly. -/
def dedentCodeOpt (s : List Char) : Option (List Char) :=
  (dedentLinesOpt (splitNL s)).map joinNL

/-- The leading run of literal space characters (`' '` only, no other
whitespace) of a line. Modelled from the claim's words, to be compared with
`leadWS`, which follows the source's `lstrip()`. -/
def leadSpacesOnly (l : List Char) : Nat := (l.takeWhile (fun c => c == ' ')).length

/-- The dedent amount as the claim words it: minimum over body lines of the
leading run of literal space characters, minus the fence column. Modelled
from the claim's words, to be compared with `dedentChars`. -/
def dedentCharsSpacesSpec (lines : List (List Char)) (a b : Nat) : Int :=
  max ((pyRange (a + 1) b).foldl
    (fun acc i => min acc ((leadSpacesOnly (lines.getD i []) : Nat) : Int)) maxsize) 0
    - pyFind3 (lines.getD a [])

/-- A Django request: only the `GET` query dictionary is relevant, modelled
as the association list of its key/value pairs in insertion order
(`QueryDict.get` returns the last value for a repeated key). -/
structure HttpRequest where
  GET : List (String × String)

/-- `get_request_param(request, param_name, default_value)`: the body is
`request.GET.get(param_name, default_value)` when `request.GET` is truthy
(nonempty), otherwise `default_value`. -/
def get_request_param (request : HttpRequest) (param_name : String)
    (default_value : Option String) : Option String :=
  if request.GET.isEmpty then default_value
  else
    match request.GET.reverse.find? (fun p => p.1 == param_name) with
    | some p => some p.2
    | none => default_value

/-- `get_request_tab(request)`. -/
def get_request_tab (request : HttpRequest) : String :=
  match get_request_param request "tab" (some "latest") with
  | some res =>
    if res == "mostviewed" || res == "unanswered" || res == "latest" ||
        res == "unresolved" then res
    else "latest"
  | none => "latest"

/-- The result of the `humanize_number` template filter. The Python function
returns `''` for `None`, the `int` itself at or below `1000`, and otherwise a
string `'{:,}X'.format((value // 10^k) / 10)`; the constructors for the
`'k'`/`'m'`/`'B'` tiers record the exact integer number of tenths
`value // 10^k` that the float formatting then renders. -/
inductive HumanizedValue where
  | empty : HumanizedValue
  | intVal : Int → HumanizedValue
  | kVal : Int → HumanizedValue
  | mVal : Int → HumanizedValue
  | bVal : Int → HumanizedValue
deriving DecidableEq

/-- `humanize_number(value)` with `None` modelled as `none`. Python's `//`
is floor division, `Int.fdiv`. -/
def humanize_number : Option Int → HumanizedValue
  | none => .empty
  | some value =>
    if value > 1000000000 then .bVal (Int.fdiv value 100000000)
    else if value > 1000000 then .mVal (Int.fdiv value 100000)
    else if value > 1000 then .kVal (Int.fdiv value 100)
    else .intVal value

/-- Input refuting the claim that a negative dedent amount left-pads the
body lines: an indented fence around a flush-left body. -/
def c1input : List Char := "  ```\nabcd\n  ```".data

/-- Input refuting idempotence: the first pass cuts `ab c` to ` c`, whose
new leading space lets a second pass cut again. -/
def c2input : List Char := "  ```\nab c\n  ```".data

/-- Input refuting the space-only reading of the minimum body indent: a
tab-indented body line, which `lstrip()` strips but a space-run does not
contain. -/
def c3input : List Char := "```\n\tx\n```".data

theorem splitNL_ne_nil : ∀ s, splitNL s ≠ []
  | [] => by simp [splitNL]
  | c :: t => by
    by_cases h : c = '\n'
    · simp [splitNL, h]
    · simp only [splitNL, if_neg h]
      cases hs : splitNL t with
      | nil => simp
      | cons l ls => simp

theorem joinNL_splitNL : ∀ s, joinNL (splitNL s) = s
  | [] => rfl
  | c :: t => by
    by_cases h : c = '\n'
    · subst h
      simp only [splitNL, if_pos rfl]
      cases hs : splitNL t with
      | nil => exact absurd hs (splitNL_ne_nil t)
      | cons l ls =>
        have ih := joinNL_splitNL t
        rw [hs] at ih
        simp [joinNL, ih]
    · simp only [splitNL, if_neg h]
      cases hs : splitNL t with
      | nil => exact absurd hs (splitNL_ne_nil t)
      | cons l ls =>
        have ih := joinNL_splitNL t
        rw [hs] at ih
        cases ls with
        | nil => simp [joinNL] at ih ⊢; exact ih
        | cons l2 ls2 => simp [joinNL] at ih ⊢; exact ih

theorem splitNL_no_newline : ∀ s, ∀ l ∈ splitNL s, '\n' ∉ l
  | [] => by simp [splitNL]
  | c :: t => by
    by_cases h : c = '\n'
    · simp only [splitNL, if_pos h]
      intro l hl
      rcases List.mem_cons.1 hl with rfl | hl
      · simp
      · exact splitNL_no_newline t l hl
    · simp only [splitNL, if_neg h]
      cases hs : splitNL t with
      | nil => exact absurd hs (splitNL_ne_nil t)
      | cons l0 ls =>
        intro l hl
        rcases List.mem_cons.1 hl with rfl | hl
        · intro hmem
          rcases List.mem_cons.1 hmem with h' | h'
          · exact h h'.symm
          · exact splitNL_no_newline t l0 (by rw [hs]; exact List.mem_cons_self _ _) h'
        · exact splitNL_no_newline t l (by rw [hs]; exact List.mem_cons_of_mem _ hl)

theorem splitNL_single : ∀ l : List Char, '\n' ∉ l → splitNL l = [l]
  | [], _ => rfl
  | c :: t, h => by
    have hc : c ≠ '\n' := fun hc => h (hc ▸ List.mem_cons_self _ _)
    have ht : '\n' ∉ t := fun hm => h (List.mem_cons_of_mem _ hm)
    simp only [splitNL, if_neg hc, splitNL_single t ht]

theorem splitNL_append (l t : List Char) (h : '\n' ∉ l) :
    splitNL (l ++ '\n' :: t) = l :: splitNL t := by
  induction l with
  | nil => simp [splitNL]
  | cons c l' ih =>
    have hc : c ≠ '\n' := fun hc => h (hc ▸ List.mem_cons_self _ _)
    have hl' : '\n' ∉ l' := fun hm => h (List.mem_cons_of_mem _ hm)
    simp only [List.cons_append, splitNL, if_neg hc, List.append_eq, ih hl']

theorem splitNL_joinNL : ∀ ls : List (List Char), ls ≠ [] →
    (∀ l ∈ ls, '\n' ∉ l) → splitNL (joinNL ls) = ls
  | [], h, _ => absurd rfl h
  | [l], _, hnl => by
    simp only [joinNL]
    exact splitNL_single l (hnl l (List.mem_cons_self _ _))
  | l :: l2 :: ls, _, hnl => by
    have h1 : '\n' ∉ l := hnl l (List.mem_cons_self _ _)
    have h2 : ∀ x ∈ l2 :: ls, '\n' ∉ x := fun x hx => hnl x (List.mem_cons_of_mem _ hx)
    simp only [joinNL]
    rw [splitNL_append _ _ h1, splitNL_joinNL (l2 :: ls) (by simp) h2]

theorem find3_lt_length : ∀ l n, find3 l = some n → n < l.length
  | [], n => by simp [find3]
  | c :: t, n => by
    by_cases h : startsTriple (c :: t) = true
    · simp only [find3, if_pos h, Option.some.injEq]
      rintro rfl
      simp
    · simp only [find3, if_neg h, Option.map_eq_some']
      rintro ⟨m, hm, rfl⟩
      have := find3_lt_length t m hm
      simp
      omega

theorem hasTriple_iff (l : List Char) :
    hasTriple l = true ↔ ∃ n, startsTriple (l.drop n) = true := by
  induction l with
  | nil =>
    simp [hasTriple, find3, List.drop_nil, startsTriple]
  | cons c t ih =>
    by_cases h : startsTriple (c :: t) = true
    · simp only [hasTriple, find3, if_pos h, Option.isSome_some, true_iff]
      exact ⟨0, h⟩
    · simp only [hasTriple, find3, if_neg h] at ih ⊢
      have hmap : (Option.map Nat.succ (find3 t)).isSome = (find3 t).isSome := by
        cases find3 t <;> rfl
      rw [hmap, ih]
      constructor
      · rintro ⟨n, hn⟩
        exact ⟨n + 1, by simpa using hn⟩
      · rintro ⟨n, hn⟩
        cases n with
        | zero => exact absurd (by simpa using hn) h
        | succ m => exact ⟨m, by simpa using hn⟩

theorem startsTriple_append (x r : List Char) (h : startsTriple x = true) :
    startsTriple (x ++ r) = true := by
  match x with
  | [] => simp [startsTriple] at h
  | [c1] => simp [startsTriple] at h
  | [c1, c2] => simp [startsTriple] at h
  | c1 :: c2 :: c3 :: rest => simpa [startsTriple] using h

theorem hasTriple_append_right (l r : List Char) (h : hasTriple l = true) :
    hasTriple (l ++ r) = true := by
  rw [hasTriple_iff] at h ⊢
  obtain ⟨n, hn⟩ := h
  refine ⟨n, ?_⟩
  rw [List.drop_append_eq_append_drop]
  exact startsTriple_append _ _ hn

theorem hasTriple_append_left (l r : List Char) (h : hasTriple r = true) :
    hasTriple (l ++ r) = true := by
  rw [hasTriple_iff] at h ⊢
  obtain ⟨n, hn⟩ := h
  refine ⟨l.length + n, ?_⟩
  rw [List.drop_append_eq_append_drop]
  have h1 : l.drop (l.length + n) = [] := List.drop_eq_nil_of_le (by omega)
  have h2 : l.length + n - l.length = n := by omega
  rw [h1, h2, List.nil_append]
  exact hn

theorem hasTriple_drop (l : List Char) (n : Nat)
    (h : hasTriple (l.drop n) = true) : hasTriple l = true := by
  rw [hasTriple_iff] at h ⊢
  obtain ⟨m, hm⟩ := h
  rw [List.drop_drop] at hm
  exact ⟨n + m, hm⟩

theorem hasTriple_of_suffix (l' l : List Char) (hs : l'.IsSuffix l)
    (h : hasTriple l' = true) : hasTriple l = true := by
  obtain ⟨t, rfl⟩ := hs
  exact hasTriple_append_left t l' h

theorem pyFind3_nonneg (l : List Char) (h : hasTriple l = true) :
    0 ≤ pyFind3 l ∧ pyFind3 l < (l.length : Int) := by
  unfold hasTriple at h
  cases hf : find3 l with
  | none => rw [hf] at h; simp at h
  | some n =>
    have := find3_lt_length l n hf
    simp only [pyFind3, hf]
    omega

theorem leadWS_eq_takeWhile (l : List Char) :
    leadWS l = (l.takeWhile pyIsSpace).length := by
  have h := List.takeWhile_append_dropWhile (p := pyIsSpace) (l := l)
  have hlen : (l.takeWhile pyIsSpace).length + (l.dropWhile pyIsSpace).length = l.length := by
    rw [← List.length_append, h]
  unfold leadWS lstrip
  omega

theorem leadWS_nil : leadWS [] = 0 := rfl

theorem leadWS_cons (c : Char) (t : List Char) :
    leadWS (c :: t) = if pyIsSpace c then leadWS t + 1 else 0 := by
  rw [leadWS_eq_takeWhile, leadWS_eq_takeWhile, List.takeWhile_cons]
  by_cases h : pyIsSpace c
  · simp [h]
  · simp [h]

theorem leadWS_le_length (l : List Char) : leadWS l ≤ l.length := Nat.sub_le _ _

theorem leadWS_drop : ∀ (l : List Char) (n : Nat), n ≤ leadWS l →
    leadWS (l.drop n) = leadWS l - n := by
  intro l n
  induction n generalizing l with
  | zero => simp
  | succ m ih =>
    intro h
    cases l with
    | nil => simp [leadWS_nil] at h
    | cons c t =>
      rw [leadWS_cons] at h ⊢
      by_cases hc : pyIsSpace c
      · rw [if_pos hc] at h ⊢
        simp only [List.drop_succ_cons]
        rw [ih t (by omega)]
        omega
      · rw [if_neg hc] at h
        omega

theorem mem_pyRange {s e j : Nat} : j ∈ pyRange s e ↔ s ≤ j ∧ j < e := by
  unfold pyRange
  rw [List.mem_range'_1]
  omega

theorem pyRange_pairwise (s e : Nat) : List.Pairwise (· < ·) (pyRange s e) :=
  List.pairwise_lt_range' s (e - s)

theorem markersAux_mem : ∀ (L : List (List Char)) (i j : Nat),
    j ∈ markersAux L i ↔ ∃ k, k < L.length ∧ j = i + k ∧ hasTriple (L.getD k []) = true
  | [], i, j => by simp [markersAux]
  | l :: t, i, j => by
    by_cases h : hasTriple l = true
    · simp only [markersAux, if_pos h, List.mem_cons]
      constructor
      · rintro (rfl | hj)
        · exact ⟨0, by simp, by omega, by simpa using h⟩
        · obtain ⟨k, hk, rfl, hh⟩ := (markersAux_mem t (i + 1) _).1 hj
          exact ⟨k + 1, by simpa using hk, by omega, by simpa using hh⟩
      · rintro ⟨k, hk, rfl, hh⟩
        cases k with
        | zero => left; omega
        | succ m =>
          right
          rw [markersAux_mem t (i + 1)]
          exact ⟨m, by simpa using hk, by omega, by simpa using hh⟩
    · simp only [markersAux, if_neg h]
      rw [markersAux_mem t (i + 1)]
      constructor
      · rintro ⟨k, hk, rfl, hh⟩
        exact ⟨k + 1, by simpa using hk, by omega, by simpa using hh⟩
      · rintro ⟨k, hk, rfl, hh⟩
        cases k with
        | zero => exact absurd (by simpa using hh) h
        | succ m => exact ⟨m, by simpa using hk, by omega, by simpa using hh⟩

theorem markersAux_mem_zero (L : List (List Char)) (j : Nat) :
    j ∈ markersAux L 0 ↔ j < L.length ∧ hasTriple (L.getD j []) = true := by
  rw [markersAux_mem]
  constructor
  · rintro ⟨k, hk, rfl, hh⟩
    simp only [Nat.zero_add]
    exact ⟨hk, hh⟩
  · rintro ⟨hj, hh⟩
    exact ⟨j, hj, by omega, hh⟩

theorem markersAux_pairwise : ∀ (L : List (List Char)) (i : Nat),
    List.Pairwise (· < ·) (markersAux L i)
  | [], i => by simp [markersAux]
  | l :: t, i => by
    by_cases h : hasTriple l = true
    · simp only [markersAux, if_pos h]
      refine List.Pairwise.cons ?_ (markersAux_pairwise t (i + 1))
      intro j hj
      obtain ⟨k, _, rfl, _⟩ := (markersAux_mem t (i + 1) j).1 hj
      omega
    · simp only [markersAux, if_neg h]
      exact markersAux_pairwise t (i + 1)

theorem findCodeBlocksAux_eq : ∀ (L : List (List Char)) (i : Nat) (st : Option Nat),
    findCodeBlocksAux L i st =
      pairUp ((match st with | none => [] | some a => [a]) ++ markersAux L i)
  | [], i, st => by cases st <;> simp [findCodeBlocksAux, markersAux, pairUp]
  | l :: t, i, st => by
    by_cases h : hasTriple l = true
    · cases st with
      | none =>
        simp only [findCodeBlocksAux, if_pos h, markersAux, List.nil_append]
        rw [findCodeBlocksAux_eq t (i + 1) (some i)]
        rfl
      | some a =>
        simp only [findCodeBlocksAux, if_pos h, markersAux]
        rw [findCodeBlocksAux_eq t (i + 1) none]
        rfl
    · cases st with
      | none =>
        simp only [findCodeBlocksAux, if_neg h, markersAux]
        rw [findCodeBlocksAux_eq t (i + 1) none]
      | some a =>
        simp only [findCodeBlocksAux, if_neg h, markersAux]
        rw [findCodeBlocksAux_eq t (i + 1) (some a)]

theorem findCodeBlocks_eq_pairUp (L : List (List Char)) :
    findCodeBlocks L = pairUp (markersAux L 0) := by
  rw [findCodeBlocks, findCodeBlocksAux_eq]
  rfl

theorem pairUp_mem_comp : ∀ (M : List Nat) (p : Nat × Nat),
    p ∈ pairUp M → p.1 ∈ M ∧ p.2 ∈ M
  | [], p => by simp [pairUp]
  | [a], p => by simp [pairUp]
  | a :: b :: rest, p => by
    simp only [pairUp, List.mem_cons]
    rintro (rfl | hp)
    · simp
    · have := pairUp_mem_comp rest p hp
      exact ⟨Or.inr (Or.inr this.1), Or.inr (Or.inr this.2)⟩

theorem pairwise_tail2 {a b : Nat} {rest : List Nat}
    (h : List.Pairwise (· < ·) (a :: b :: rest)) : List.Pairwise (· < ·) rest :=
  h.sublist ((List.sublist_cons_self b rest).trans (List.sublist_cons_self a (b :: rest)))

theorem pairUp_lt : ∀ (M : List Nat), List.Pairwise (· < ·) M →
    ∀ p ∈ pairUp M, p.1 < p.2
  | [], _, p => by simp [pairUp]
  | [a], _, p => by simp [pairUp]
  | a :: b :: rest, hM, p => by
    simp only [pairUp, List.mem_cons]
    rintro (rfl | hp)
    · exact (List.pairwise_cons.1 hM).1 b (List.mem_cons_self _ _)
    · exact pairUp_lt rest (pairwise_tail2 hM) p hp

theorem pairUp_chain : ∀ (M : List Nat), List.Pairwise (· < ·) M →
    List.Chain' (fun p q => p.2 < q.1) (pairUp M)
  | [], _ => by simp [pairUp]
  | [a], _ => by simp [pairUp]
  | a :: b :: rest, hM => by
    simp only [pairUp]
    rw [List.chain'_cons']
    refine ⟨?_, pairUp_chain rest (pairwise_tail2 hM)⟩
    intro q hq
    have hqmem : q ∈ pairUp rest := by
      cases hp : pairUp rest with
      | nil => rw [hp] at hq; simp at hq
      | cons q0 qs =>
        rw [hp] at hq
        simp only [List.head?_cons, Option.mem_def, Option.some.injEq] at hq
        rw [← hq]
        exact List.mem_cons_self _ _
    have hq1 : q.1 ∈ rest := (pairUp_mem_comp rest q hqmem).1
    exact (List.pairwise_cons.1 ((List.pairwise_cons.1 hM).2)).1 q.1 hq1

theorem pairUp_no_inner : ∀ (M : List Nat), List.Pairwise (· < ·) M →
    ∀ p ∈ pairUp M, ∀ j ∈ M, j ≤ p.1 ∨ p.2 ≤ j
  | [], _, p => by simp [pairUp]
  | [a], _, p => by simp [pairUp]
  | a :: b :: rest, hM, p => by
    simp only [pairUp, List.mem_cons]
    rintro (rfl | hp) j hj
    · rcases hj with rfl | rfl | hj'
      · exact Or.inl (Nat.le_refl _)
      · exact Or.inr (Nat.le_refl _)
      · exact Or.inr (Nat.le_of_lt ((List.pairwise_cons.1 ((List.pairwise_cons.1 hM).2)).1 j hj'))
    · rcases hj with rfl | rfl | hj'
      · have : j < p.1 := (List.pairwise_cons.1 hM).1 p.1
          (List.mem_cons_of_mem _ (pairUp_mem_comp rest p hp).1)
        exact Or.inl (Nat.le_of_lt this)
      · have : j < p.1 := (List.pairwise_cons.1 ((List.pairwise_cons.1 hM).2)).1 p.1
          (pairUp_mem_comp rest p hp).1
        exact Or.inl (Nat.le_of_lt this)
      · exact pairUp_no_inner rest (pairwise_tail2 hM) p hp j hj'

theorem mem_of_getLast?_eq : ∀ (l : List Nat) (m : Nat), l.getLast? = some m → m ∈ l
  | [], m => by simp
  | [a], m => by
    intro h
    simp only [List.getLast?_singleton, Option.some.injEq] at h
    simp [h]
  | a :: b :: t, m => by
    rw [List.getLast?_cons_cons]
    intro h
    exact List.mem_cons_of_mem _ (mem_of_getLast?_eq (b :: t) m h)

theorem pairUp_last_gt : ∀ (M : List Nat), List.Pairwise (· < ·) M →
    M.length % 2 = 1 → ∀ m, M.getLast? = some m → ∀ p ∈ pairUp M, p.2 < m
  | [], _, h, _, _, _, _ => by simp at h
  | [a], _, _, m, _, p, hp => by simp [pairUp] at hp
  | a :: b :: rest, hM, hodd, m, hlast, p, hp => by
    have hrodd : rest.length % 2 = 1 := by
      simp only [List.length_cons] at hodd
      omega
    have hrne : rest ≠ [] := by
      intro h
      rw [h] at hrodd
      simp at hrodd
    have hlast' : rest.getLast? = some m := by
      cases rest with
      | nil => exact absurd rfl hrne
      | cons r rs =>
        rw [List.getLast?_cons_cons, List.getLast?_cons_cons] at hlast
        exact hlast
    have hm_mem : m ∈ rest := mem_of_getLast?_eq rest m hlast'
    simp only [pairUp, List.mem_cons] at hp
    rcases hp with rfl | hp
    · exact (List.pairwise_cons.1 ((List.pairwise_cons.1 hM).2)).1 m hm_mem
    · exact pairUp_last_gt rest (pairwise_tail2 hM) hrodd m hlast' p hp

theorem chain_all_lt : ∀ (rest : List (Nat × Nat)) (q : Nat × Nat),
    List.Chain' (fun p r => p.2 < r.1) (q :: rest) → (∀ r ∈ rest, r.1 < r.2) →
    ∀ r ∈ rest, q.2 < r.1
  | [], q, _, _, r, hr => by simp at hr
  | r0 :: rs, q, hch, hlt, r, hr => by
    rw [List.chain'_cons] at hch
    rcases List.mem_cons.1 hr with rfl | hr'
    · exact hch.1
    · have h1 := chain_all_lt rs r0 hch.2
        (fun x hx => hlt x (List.mem_cons_of_mem _ hx)) r hr'
      have hr0 : r0.1 < r0.2 := hlt r0 (List.mem_cons_self _ _)
      omega

theorem pySliceFrom_zero (l : List Char) : pySliceFrom l 0 = l := by
  simp [pySliceFrom]

theorem pySliceFrom_suffix (l : List Char) (d : Int) : (pySliceFrom l d).IsSuffix l := by
  unfold pySliceFrom
  split
  · exact List.drop_suffix _ _
  · exact List.drop_suffix _ _

theorem sliceRange_get? (a b : Nat) (d : Int) : ∀ (ls : List (List Char)) (i0 j : Nat),
    (sliceRange a b d i0 ls).get? j =
      (ls.get? j).map (fun l => if a < i0 + j ∧ i0 + j < b then pySliceFrom l d else l)
  | [], i0, j => by simp [sliceRange]
  | l :: rest, i0, j => by
    cases j with
    | zero => simp [sliceRange]
    | succ m =>
      simp only [sliceRange, List.get?_cons_succ]
      rw [sliceRange_get? a b d rest (i0 + 1) m]
      have : i0 + 1 + m = i0 + (m + 1) := by omega
      rw [this]

theorem sliceRange_length (a b : Nat) (d : Int) : ∀ (ls : List (List Char)) (i0 : Nat),
    (sliceRange a b d i0 ls).length = ls.length
  | [], _ => rfl
  | l :: rest, i0 => by
    simp only [sliceRange, List.length_cons, sliceRange_length a b d rest (i0 + 1)]

theorem dedentBlock_get? (L : List (List Char)) (a b i : Nat) :
    (dedentBlock L a b).get? i =
      (L.get? i).map
        (fun l => if a < i ∧ i < b then pySliceFrom l (dedentChars L a b) else l) := by
  unfold dedentBlock
  split
  · rename_i h0
    cases hL : L.get? i with
    | none => simp
    | some l =>
      simp only [Option.map_some']
      rw [h0]
      by_cases hc : a < i ∧ i < b
      · rw [if_pos hc, pySliceFrom_zero]
      · rw [if_neg hc]
  · rw [sliceRange_get?]
    simp only [Nat.zero_add]

theorem dedentBlock_length (L : List (List Char)) (a b : Nat) :
    (dedentBlock L a b).length = L.length := by
  unfold dedentBlock
  split
  · rfl
  · exact sliceRange_length a b _ L 0

theorem dedentBlock_frame (L : List (List Char)) (a b i : Nat)
    (h : ¬(a < i ∧ i < b)) : (dedentBlock L a b).get? i = L.get? i := by
  rw [dedentBlock_get?]
  cases L.get? i with
  | none => rfl
  | some l => simp [if_neg h]

theorem dedentBlock_inside (L : List (List Char)) (a b i : Nat)
    (h1 : a < i) (h2 : i < b) :
    (dedentBlock L a b).get? i =
      (L.get? i).map (fun l => pySliceFrom l (dedentChars L a b)) := by
  rw [dedentBlock_get?]
  cases L.get? i with
  | none => rfl
  | some l => simp [if_pos (And.intro h1 h2)]

theorem dedentBlock_id_of_no_body (L : List (List Char)) (a b : Nat)
    (h : b ≤ a + 1) : dedentBlock L a b = L := by
  apply List.ext
  intro i
  apply dedentBlock_frame
  omega

theorem foldl_min_congr (f g : Nat → Int) : ∀ (idxs : List Nat) (acc : Int),
    (∀ j ∈ idxs, f j = g j) →
    idxs.foldl (fun a j => min a (f j)) acc = idxs.foldl (fun a j => min a (g j)) acc
  | [], acc, _ => rfl
  | i :: t, acc, h => by
    simp only [List.foldl_cons]
    rw [h i (List.mem_cons_self _ _),
      foldl_min_congr f g t _ (fun j hj => h j (List.mem_cons_of_mem _ hj))]

theorem foldl_min_le_init (f : Nat → Int) : ∀ (idxs : List Nat) (acc : Int),
    idxs.foldl (fun a j => min a (f j)) acc ≤ acc
  | [], acc => le_refl acc
  | i :: t, acc => by
    simp only [List.foldl_cons]
    exact (foldl_min_le_init f t _).trans (min_le_left _ _)

theorem foldl_min_le_mem (f : Nat → Int) : ∀ (idxs : List Nat) (acc : Int) (j : Nat),
    j ∈ idxs → idxs.foldl (fun a x => min a (f x)) acc ≤ f j
  | [], _, j, h => by simp at h
  | i :: t, acc, j, h => by
    simp only [List.foldl_cons]
    rcases List.mem_cons.1 h with rfl | h'
    · exact (foldl_min_le_init f t _).trans (min_le_right _ _)
    · exact foldl_min_le_mem f t _ j h'

theorem le_foldl_min (f : Nat → Int) (v : Int) : ∀ (idxs : List Nat) (acc : Int),
    v ≤ acc → (∀ j ∈ idxs, v ≤ f j) →
    v ≤ idxs.foldl (fun a x => min a (f x)) acc
  | [], acc, hacc, _ => hacc
  | i :: t, acc, hacc, h => by
    simp only [List.foldl_cons]
    exact le_foldl_min f v t _ (le_min hacc (h i (List.mem_cons_self _ _)))
      (fun j hj => h j (List.mem_cons_of_mem _ hj))

theorem foldl_min_attains (f : Nat → Int) : ∀ (idxs : List Nat) (acc : Int),
    idxs.foldl (fun a x => min a (f x)) acc = acc ∨
      ∃ j ∈ idxs, idxs.foldl (fun a x => min a (f x)) acc = f j
  | [], acc => Or.inl rfl
  | i :: t, acc => by
    simp only [List.foldl_cons]
    rcases foldl_min_attains f t (min acc (f i)) with h | ⟨j, hj, he⟩
    · rcases le_total acc (f i) with hle | hle
      · exact Or.inl (h.trans (min_eq_left hle))
      · exact Or.inr ⟨i, List.mem_cons_self _ _, h.trans (min_eq_right hle)⟩
    · exact Or.inr ⟨j, List.mem_cons_of_mem _ hj, he⟩

theorem dedentChars_congr (L1 L2 : List (List Char)) (a b : Nat)
    (h : ∀ j, a ≤ j → j < b → L1.getD j [] = L2.getD j []) (hab : a < b) :
    dedentChars L1 a b = dedentChars L2 a b := by
  unfold dedentChars lineStartOf
  rw [h a (Nat.le_refl a) hab]
  rw [foldl_min_congr (fun i => ((leadWS (L1.getD i []) : Nat) : Int))
    (fun i => ((leadWS (L2.getD i []) : Nat) : Int)) (pyRange (a + 1) b) maxsize]
  intro j hj
  have := mem_pyRange.1 hj
  rw [h j (by omega) (by omega)]

theorem foldDedent_frame : ∀ (ss : List (Nat × Nat)) (L : List (List Char)) (i : Nat),
    (∀ p ∈ ss, ¬(p.1 < i ∧ i < p.2)) →
    (ss.foldl (fun acc p => dedentBlock acc p.1 p.2) L).get? i = L.get? i
  | [], L, i, _ => rfl
  | q :: rest, L, i, h => by
    simp only [List.foldl_cons]
    rw [foldDedent_frame rest _ i (fun p hp => h p (List.mem_cons_of_mem _ hp))]
    exact dedentBlock_frame L q.1 q.2 i (h q (List.mem_cons_self _ _))

theorem foldDedent_length : ∀ (ss : List (Nat × Nat)) (L : List (List Char)),
    (ss.foldl (fun acc p => dedentBlock acc p.1 p.2) L).length = L.length
  | [], L => rfl
  | q :: rest, L => by
    simp only [List.foldl_cons]
    rw [foldDedent_length rest _, dedentBlock_length]

theorem foldDedent_inside : ∀ (ss : List (Nat × Nat)) (L : List (List Char)),
    List.Chain' (fun p q => p.2 < q.1) ss → (∀ p ∈ ss, p.1 < p.2) →
    ∀ p ∈ ss, ∀ i, p.1 < i → i < p.2 →
    (ss.foldl (fun acc q => dedentBlock acc q.1 q.2) L).get? i =
      (L.get? i).map (fun l => pySliceFrom l (dedentChars L p.1 p.2))
  | [], L, _, _, p, hp, _, _, _ => by simp at hp
  | q :: rest, L, hch, hlt, p, hp, i, hi1, hi2 => by
    simp only [List.foldl_cons]
    have hrest_lt : ∀ r ∈ rest, r.1 < r.2 := fun r hr => hlt r (List.mem_cons_of_mem _ hr)
    rcases List.mem_cons.1 hp with rfl | hp'
    · have hout : ∀ r ∈ rest, ¬(r.1 < i ∧ i < r.2) := by
        intro r hr hcon
        have := chain_all_lt rest p hch hrest_lt r hr
        omega
      rw [foldDedent_frame rest _ i hout]
      exact dedentBlock_inside L p.1 p.2 i hi1 hi2
    · have hq2 : q.2 < p.1 := chain_all_lt rest q hch hrest_lt p hp'
      have hiq : ¬(q.1 < i ∧ i < q.2) := by omega
      have hLq : ∀ j, p.1 ≤ j → j < p.2 → (dedentBlock L q.1 q.2).getD j [] = L.getD j [] := by
        intro j hj1 hj2
        have hjq : ¬(q.1 < j ∧ j < q.2) := by omega
        have h' := dedentBlock_frame L q.1 q.2 j hjq
        rw [List.getD_eq_get?, List.getD_eq_get?, h']
      have hdc : dedentChars (dedentBlock L q.1 q.2) p.1 p.2 = dedentChars L p.1 p.2 :=
        dedentChars_congr _ _ p.1 p.2 hLq (hlt p hp)
      rw [foldDedent_inside rest _ hch.tail hrest_lt p hp' i hi1 hi2, hdc,
        dedentBlock_frame L q.1 q.2 i hiq]

theorem foldDedent_getD_suffix : ∀ (ss : List (Nat × Nat)) (L : List (List Char)) (i : Nat),
    ((ss.foldl (fun acc p => dedentBlock acc p.1 p.2) L).getD i []).IsSuffix (L.getD i [])
  | [], L, i => List.suffix_rfl
  | q :: rest, L, i => by
    simp only [List.foldl_cons]
    refine (foldDedent_getD_suffix rest _ i).trans ?_
    rw [List.getD_eq_get?, List.getD_eq_get?, dedentBlock_get?]
    cases L.get? i with
    | none => exact List.suffix_rfl
    | some l =>
      simp only [Option.map_some', Option.getD_some]
      split
      · exact pySliceFrom_suffix l _
      · exact List.suffix_rfl

theorem dedentLines_length (L : List (List Char)) : (dedentLines L).length = L.length :=
  foldDedent_length _ L

theorem dedentLines_getD_suffix (L : List (List Char)) (i : Nat) :
    ((dedentLines L).getD i []).IsSuffix (L.getD i []) :=
  foldDedent_getD_suffix _ L i

theorem splitNL_dedent_code (s : List Char) :
    splitNL (dedent_code s) = dedentLines (splitNL s) := by
  unfold dedent_code
  apply splitNL_joinNL
  · intro h
    have h1 := dedentLines_length (splitNL s)
    rw [h] at h1
    have h2 := splitNL_ne_nil s
    cases hs : splitNL s with
    | nil => exact h2 hs
    | cons l ls => rw [hs] at h1; simp at h1
  · intro l hl
    obtain ⟨i, hi⟩ := List.mem_iff_get?.1 hl
    have hlen : i < (dedentLines (splitNL s)).length := (List.get?_eq_some.1 hi).1
    have hlD : (dedentLines (splitNL s)).getD i [] = l := by
      rw [List.getD_eq_get?, hi]
      rfl
    have hsuf := dedentLines_getD_suffix (splitNL s) i
    rw [hlD] at hsuf
    have himem : (splitNL s).getD i [] ∈ splitNL s := by
      have hlen2 : i < (splitNL s).length := by
        rw [dedentLines_length] at hlen
        exact hlen
      rw [List.getD_eq_get?]
      cases hg : (splitNL s).get? i with
      | none =>
        rw [List.get?_eq_none] at hg
        omega
      | some x =>
        simp only [Option.getD_some]
        exact List.get?_mem hg
    intro hmem
    exact splitNL_no_newline s _ himem (hsuf.subset hmem)

theorem pySliceFrom_nonneg (l : List Char) (d : Int) (h : 0 ≤ d) :
    pySliceFrom l d = l.drop d.toNat := by
  unfold pySliceFrom
  rw [if_pos h]

theorem pySliceFrom_neg (l : List Char) (d : Int) (h : d < 0) :
    pySliceFrom l d = l.drop (l.length - d.natAbs) := by
  unfold pySliceFrom
  rw [if_neg (by omega)]
  congr 1
  omega

theorem findCodeBlocks_lt (L : List (List Char)) :
    ∀ p ∈ findCodeBlocks L, p.1 < p.2 := by
  intro p hp
  rw [findCodeBlocks_eq_pairUp] at hp
  exact pairUp_lt _ (markersAux_pairwise L 0) p hp

theorem findCodeBlocks_chain (L : List (List Char)) :
    List.Chain' (fun p q => p.2 < q.1) (findCodeBlocks L) := by
  rw [findCodeBlocks_eq_pairUp]
  exact pairUp_chain _ (markersAux_pairwise L 0)

theorem findCodeBlocks_mem_markers (L : List (List Char)) :
    ∀ p ∈ findCodeBlocks L, p.1 ∈ markersAux L 0 ∧ p.2 ∈ markersAux L 0 := by
  intro p hp
  rw [findCodeBlocks_eq_pairUp] at hp
  exact pairUp_mem_comp _ p hp

theorem findCodeBlocks_bound (L : List (List Char)) :
    ∀ p ∈ findCodeBlocks L, p.1 < L.length ∧ p.2 < L.length := by
  intro p hp
  have h := findCodeBlocks_mem_markers L p hp
  exact ⟨((markersAux_mem_zero L p.1).1 h.1).1, ((markersAux_mem_zero L p.2).1 h.2).1⟩

theorem findCodeBlocks_fence_markers (L : List (List Char)) :
    ∀ p ∈ findCodeBlocks L, hasTriple (L.getD p.1 []) = true ∧
      hasTriple (L.getD p.2 []) = true := by
  intro p hp
  have h := findCodeBlocks_mem_markers L p hp
  exact ⟨((markersAux_mem_zero L p.1).1 h.1).2, ((markersAux_mem_zero L p.2).1 h.2).2⟩

theorem findCodeBlocks_marker_not_inner (L : List (List Char)) (j : Nat)
    (hj : j ∈ markersAux L 0) :
    ∀ q ∈ findCodeBlocks L, ¬(q.1 < j ∧ j < q.2) := by
  intro q hq hcon
  rw [findCodeBlocks_eq_pairUp] at hq
  have := pairUp_no_inner _ (markersAux_pairwise L 0) q hq j hj
  omega

theorem no_marker_strictly_inside (L : List (List Char)) (p : Nat × Nat)
    (hp : p ∈ findCodeBlocks L) (k : Nat) (h1 : p.1 < k) (h2 : k < p.2)
    (hk : k < L.length) : hasTriple (L.getD k []) = false := by
  by_contra hc
  rw [Bool.not_eq_false] at hc
  have hkM : k ∈ markersAux L 0 := (markersAux_mem_zero L k).2 ⟨hk, hc⟩
  exact findCodeBlocks_marker_not_inner L k hkM p hp ⟨h1, h2⟩

theorem dedentLines_frame (L : List (List Char)) (i : Nat)
    (h : ∀ p ∈ findCodeBlocks L, ¬(p.1 < i ∧ i < p.2)) :
    (dedentLines L).get? i = L.get? i :=
  foldDedent_frame _ L i h

theorem dedentLines_inside (L : List (List Char)) (p : Nat × Nat)
    (hp : p ∈ findCodeBlocks L) (i : Nat) (h1 : p.1 < i) (h2 : i < p.2) :
    (dedentLines L).get? i = (L.get? i).map (fun l => pySliceFrom l (dedentChars L p.1 p.2)) :=
  foldDedent_inside _ L (findCodeBlocks_chain L) (findCodeBlocks_lt L) p hp i h1 h2

theorem getD_mem_of_lt (L : List (List Char)) (i : Nat) (h : i < L.length) :
    L.getD i [] ∈ L := by
  rw [List.getD_eq_get?]
  cases hg : L.get? i with
  | none =>
    rw [List.get?_eq_none] at hg
    omega
  | some x =>
    simp only [Option.getD_some]
    exact List.get?_mem hg

theorem markersAux_congr : ∀ (L1 L2 : List (List Char)) (i : Nat), L1.length = L2.length →
    (∀ k, k < L1.length → hasTriple (L1.getD k []) = hasTriple (L2.getD k [])) →
    markersAux L1 i = markersAux L2 i
  | [], [], i, _, _ => rfl
  | [], l :: t, i, h, _ => by simp at h
  | l :: t, [], i, h, _ => by simp at h
  | l1 :: t1, l2 :: t2, i, h, hk => by
    have h0 := hk 0 (by simp)
    simp only [List.getD_cons_zero] at h0
    have ht := markersAux_congr t1 t2 (i + 1) (by simpa using h)
      (fun k hik => by
        have := hk (k + 1) (by simpa using hik)
        simpa using this)
    simp only [markersAux, h0, ht]

theorem markersAux_nil_of_no_triple : ∀ (L : List (List Char)) (i : Nat),
    (∀ l ∈ L, hasTriple l = false) → markersAux L i = []
  | [], _, _ => rfl
  | l :: t, i, h => by
    have h0 := h l (List.mem_cons_self _ _)
    simp only [markersAux, h0, Bool.false_eq_true, if_false]
    exact markersAux_nil_of_no_triple t (i + 1) (fun x hx => h x (List.mem_cons_of_mem _ hx))

theorem hasTriple_joinNL : ∀ (ls : List (List Char)) (l : List Char),
    l ∈ ls → hasTriple l = true → hasTriple (joinNL ls) = true
  | [], l, hm, _ => by simp at hm
  | [x], l, hm, ht => by
    simp only [List.mem_singleton] at hm
    subst hm
    exact ht
  | x :: y :: t, l, hm, ht => by
    simp only [joinNL]
    rcases List.mem_cons.1 hm with rfl | hm'
    · exact hasTriple_append_right _ _ ht
    · have hrec := hasTriple_joinNL (y :: t) l hm' ht
      have : hasTriple ('\n' :: joinNL (y :: t)) = true :=
        hasTriple_append_left ['\n'] _ hrec
      exact hasTriple_append_left x _ this

theorem foldl_id_of_fixed : ∀ (ss : List (Nat × Nat)) (X : List (List Char)),
    (∀ p ∈ ss, dedentBlock X p.1 p.2 = X) →
    ss.foldl (fun acc p => dedentBlock acc p.1 p.2) X = X
  | [], X, _ => rfl
  | q :: rest, X, h => by
    simp only [List.foldl_cons, h q (List.mem_cons_self _ _)]
    exact foldl_id_of_fixed rest X (fun p hp => h p (List.mem_cons_of_mem _ hp))

theorem dedentChars_second_pass (L : List (List Char)) (a b : Nat)
    (hp : (a, b) ∈ findCodeBlocks L)
    (hbody : a + 1 < b)
    (hlen : ∀ l ∈ L, (l.length : Int) ≤ maxsize)
    (hd : 0 ≤ dedentChars L a b) :
    dedentChars (dedentLines L) a b = 0 := by
  have hbounds := findCodeBlocks_bound L (a, b) hp
  have ha_len : a < L.length := hbounds.1
  have hblen : b < L.length := hbounds.2
  have hfence_m : hasTriple (L.getD a []) = true := (findCodeBlocks_fence_markers L (a, b) hp).1
  have hfs := pyFind3_nonneg _ hfence_m
  have hfl_len : ((L.getD a []).length : Int) ≤ maxsize := hlen _ (getD_mem_of_lt L a ha_len)
  have hfence' : (dedentLines L).getD a [] = L.getD a [] := by
    have haM : a ∈ markersAux L 0 := (findCodeBlocks_mem_markers L (a, b) hp).1
    have hni := findCodeBlocks_marker_not_inner L a haM
    rw [List.getD_eq_get?, List.getD_eq_get?, dedentLines_frame L a hni]
  have hm_nonneg : 0 ≤ lineStartOf L a b := by
    unfold lineStartOf
    apply le_foldl_min
    · decide
    · intro j _
      omega
  have hd_eq : dedentChars L a b = lineStartOf L a b - pyFind3 (L.getD a []) := by
    unfold dedentChars
    rw [max_eq_left hm_nonneg]
  have hm_le : ∀ i, a < i → i < b →
      lineStartOf L a b ≤ ((leadWS (L.getD i []) : Nat) : Int) := by
    intro i h1 h2
    unfold lineStartOf
    exact foldl_min_le_mem _ _ _ i (mem_pyRange.2 ⟨by omega, h2⟩)
  have hbody' : ∀ i, a < i → i < b →
      (dedentLines L).getD i [] = (L.getD i []).drop (dedentChars L a b).toNat := by
    intro i h1 h2
    have hins := dedentLines_inside L (a, b) hp i h1 h2
    rw [List.getD_eq_get?, hins, List.getD_eq_get?]
    cases hg : L.get? i with
    | none =>
      rw [List.get?_eq_none] at hg
      omega
    | some l =>
      simp only [Option.map_some', Option.getD_some]
      exact pySliceFrom_nonneg l _ hd
  have hlead' : ∀ i, a < i → i < b →
      ((leadWS ((dedentLines L).getD i []) : Nat) : Int) =
        ((leadWS (L.getD i []) : Nat) : Int) - dedentChars L a b := by
    intro i h1 h2
    rw [hbody' i h1 h2]
    have h3 := hm_le i h1 h2
    have h4 := hfs.1
    have hle : (dedentChars L a b).toNat ≤ leadWS (L.getD i []) := by
      rw [hd_eq]
      omega
    rw [leadWS_drop _ _ hle]
    omega
  have hattain : ∃ j, a < j ∧ j < b ∧
      lineStartOf L a b = ((leadWS (L.getD j []) : Nat) : Int) := by
    have hbr : lineStartOf L a b = (pyRange (a + 1) b).foldl
        (fun acc x => min acc ((leadWS (L.getD x []) : Nat) : Int)) maxsize := rfl
    rcases foldl_min_attains (fun x => ((leadWS (L.getD x []) : Nat) : Int))
        (pyRange (a + 1) b) maxsize with hM | ⟨j, hj, hjeq⟩
    · have h1 : lineStartOf L a b ≤ ((leadWS (L.getD (a + 1) []) : Nat) : Int) :=
        hm_le (a + 1) (by omega) hbody
      have h2 : ((leadWS (L.getD (a + 1) []) : Nat) : Int) ≤ maxsize := by
        have hml := hlen _ (getD_mem_of_lt L (a + 1) (by omega))
        have hws := leadWS_le_length (L.getD (a + 1) [])
        omega
      have hmm : lineStartOf L a b = maxsize := by
        rw [hbr]
        exact hM
      exact ⟨a + 1, by omega, hbody, by omega⟩
    · have hjm := mem_pyRange.1 hj
      refine ⟨j, by omega, by omega, ?_⟩
      rw [hbr]
      exact hjeq
  have hmin' : lineStartOf (dedentLines L) a b = pyFind3 (L.getD a []) := by
    obtain ⟨j0, hj01, hj02, hj0eq⟩ := hattain
    apply le_antisymm
    · have h1 : lineStartOf (dedentLines L) a b ≤
          ((leadWS ((dedentLines L).getD j0 []) : Nat) : Int) := by
        unfold lineStartOf
        exact foldl_min_le_mem _ _ _ j0 (mem_pyRange.2 ⟨by omega, hj02⟩)
      rw [hlead' j0 hj01 hj02, hd_eq, ← hj0eq] at h1
      omega
    · unfold lineStartOf
      apply le_foldl_min
      · have h5 := hfs.2
        omega
      · intro j hj
        have hjm := mem_pyRange.1 hj
        have h2 := hlead' j (by omega) (by omega)
        have h3 := hm_le j (by omega) (by omega)
        rw [h2, hd_eq]
        omega
  unfold dedentChars
  rw [hfence', hmin', max_eq_left hfs.1, sub_self]

/-- C1 (counterexample): on `"  ```\nabcd\n  ```"` the unique span `(0, 2)`
has `dedentChars = -2 < 0`, yet `dedent_code` does not prepend two spaces to
the body line `abcd`; the Python negative slice `[-2:]` keeps only its last
two characters, so the output body is `cd`, not `  abcd`. -/
theorem c1_counterexample :
    (0, 2) ∈ findCodeBlocks (splitNL c1input) ∧
    dedentChars (splitNL c1input) 0 2 = -2 ∧
    dedent_code c1input = "  ```\ncd\n  ```".data ∧
    dedent_code c1input ≠ "  ```\n  abcd\n  ```".data := by
  refine ⟨by decide, by decide, by decide, by decide⟩

/-- C1 (amended): for every recognized span whose computed `dedentChars` is
negative, `dedent_code` replaces each body line strictly between the fences
by the Python slice `line[dedentChars:]`, i.e. it keeps the suffix of length
`min(|dedentChars|, len(line))` and drops the leading
`len(line) - |dedentChars|` characters; nothing is prepended. -/
theorem c1_claim (s : List Char) (a b : Nat)
    (hp : (a, b) ∈ findCodeBlocks (splitNL s))
    (hneg : dedentChars (splitNL s) a b < 0) :
    ∀ i, a < i → i < b →
      (splitNL (dedent_code s)).get? i =
        ((splitNL s).get? i).map
          (fun l => l.drop (l.length - (dedentChars (splitNL s) a b).natAbs)) := by
  intro i h1 h2
  rw [splitNL_dedent_code, dedentLines_inside (splitNL s) (a, b) hp i h1 h2]
  cases (splitNL s).get? i with
  | none => rfl
  | some l =>
    simp only [Option.map_some']
    rw [pySliceFrom_neg l _ hneg]

/-- C1 (witness): the amended statement evaluated on the counterexample
input at body line 1. -/
theorem c1_witness :
    (splitNL (dedent_code c1input)).get? 1 =
      ((splitNL c1input).get? 1).map
        (fun l => l.drop (l.length - (dedentChars (splitNL c1input) 0 2).natAbs)) :=
  c1_claim c1input 0 2 (by decide) (by decide) 1 (by decide) (by decide)

/-- C2 (counterexample): `dedent_code` is not idempotent. On
`"  ```\nab c\n  ```"` the first pass computes `dedentChars = -2` and turns
the body `ab c` into ` c`; the second pass computes `dedentChars = -1` and
turns ` c` into `c`. -/
theorem c2_counterexample :
    dedent_code (dedent_code c2input) ≠ dedent_code c2input := by decide

/-- C2 (amended): `dedent_code` is idempotent on every input whose lines fit
in a Python string (length at most `sys.maxsize`, always true in CPython) and
whose recognized spans all have a nonnegative computed `dedentChars`; the
counterexample shows idempotence fails when some `dedentChars` is negative. -/
theorem c2_claim (s : List Char)
    (hlen : ∀ l ∈ splitNL s, (l.length : Int) ≤ maxsize)
    (hd : ∀ p ∈ findCodeBlocks (splitNL s), 0 ≤ dedentChars (splitNL s) p.1 p.2) :
    dedent_code (dedent_code s) = dedent_code s := by
  have hsplit := splitNL_dedent_code s
  have hmar : markersAux (dedentLines (splitNL s)) 0 = markersAux (splitNL s) 0 := by
    apply markersAux_congr
    · exact dedentLines_length _
    · intro k hk
      rw [dedentLines_length] at hk
      by_cases hin : ∃ p, p ∈ findCodeBlocks (splitNL s) ∧ p.1 < k ∧ k < p.2
      · obtain ⟨p, hp, h1, h2⟩ := hin
        have hfalse : hasTriple ((splitNL s).getD k []) = false :=
          no_marker_strictly_inside _ p hp k h1 h2 hk
        have hsuf := dedentLines_getD_suffix (splitNL s) k
        have hfalse' : hasTriple ((dedentLines (splitNL s)).getD k []) = false := by
          by_contra hc
          rw [Bool.not_eq_false] at hc
          have := hasTriple_of_suffix _ _ hsuf hc
          rw [hfalse] at this
          simp at this
        rw [hfalse, hfalse']
      · have hnotin : ∀ p ∈ findCodeBlocks (splitNL s), ¬(p.1 < k ∧ k < p.2) := by
          intro p hp hcon
          exact hin ⟨p, hp, hcon⟩
        rw [List.getD_eq_get?, List.getD_eq_get?, dedentLines_frame _ k hnotin]
  have hspans : findCodeBlocks (dedentLines (splitNL s)) = findCodeBlocks (splitNL s) := by
    rw [findCodeBlocks_eq_pairUp, findCodeBlocks_eq_pairUp, hmar]
  have hDD : dedentLines (dedentLines (splitNL s)) = dedentLines (splitNL s) := by
    have hstep : ∀ p ∈ findCodeBlocks (splitNL s),
        dedentBlock (dedentLines (splitNL s)) p.1 p.2 = dedentLines (splitNL s) := by
      intro p hp
      by_cases hbody : p.1 + 1 < p.2
      · have h0 := dedentChars_second_pass (splitNL s) p.1 p.2 hp hbody hlen (hd p hp)
        unfold dedentBlock
        rw [if_pos h0]
      · exact dedentBlock_id_of_no_body _ _ _ (by omega)
    show (findCodeBlocks (dedentLines (splitNL s))).foldl
        (fun acc p => dedentBlock acc p.1 p.2) (dedentLines (splitNL s)) =
      dedentLines (splitNL s)
    rw [hspans]
    exact foldl_id_of_fixed _ _ hstep
  show joinNL (dedentLines (splitNL (dedent_code s))) = dedent_code s
  rw [hsplit, hDD]
  rfl

/-- C2 (witness): the amended idempotence applied to a concrete input with a
nonnegative dedent amount. -/
theorem c2_witness :
    dedent_code (dedent_code "```\n  x\n```".data) = dedent_code "```\n  x\n```".data :=
  c2_claim "```\n  x\n```".data (by decide) (by decide)

/-- C3 (counterexample): on `"```\n\tx\n```"` the body line is tab-indented:
its leading run of literal space characters is empty, so the claimed
space-only minimum gives `dedentChars = 0` and an unchanged block, while the
code's `lstrip()` (which strips the tab) gives `dedentChars = 1` and the tab
is removed from the output. -/
theorem c3_counterexample :
    (0, 2) ∈ findCodeBlocks (splitNL c3input) ∧
    dedentChars (splitNL c3input) 0 2 = 1 ∧
    dedentCharsSpacesSpec (splitNL c3input) 0 2 = 0 ∧
    dedent_code c3input = "```\nx\n```".data ∧
    dedent_code c3input ≠ c3input := by
  refine ⟨by decide, by decide, by decide, by decide, by decide⟩

/-- C3 (amended): for every recognized span with at least one body line (on
an input whose lines fit in a Python string), the dedent amount is the
minimum, over the lines strictly between the fences, of that line's leading
whitespace run (all characters stripped by `lstrip()`, not only spaces),
minus the fence column: it is a lower bound of those runs minus the fence
column and is attained by some body line. -/
theorem c3_claim (s : List Char) (a b : Nat)
    (hp : (a, b) ∈ findCodeBlocks (splitNL s))
    (hbody : a + 1 < b)
    (hlen : ∀ l ∈ splitNL s, (l.length : Int) ≤ maxsize) :
    (∀ i, a < i → i < b →
      dedentChars (splitNL s) a b ≤
        ((leadWS ((splitNL s).getD i []) : Nat) : Int) - pyFind3 ((splitNL s).getD a [])) ∧
    (∃ i, a < i ∧ i < b ∧
      dedentChars (splitNL s) a b =
        ((leadWS ((splitNL s).getD i []) : Nat) : Int) - pyFind3 ((splitNL s).getD a [])) := by
  have hbounds := findCodeBlocks_bound (splitNL s) (a, b) hp
  have hm_nonneg : 0 ≤ lineStartOf (splitNL s) a b := by
    unfold lineStartOf
    apply le_foldl_min
    · decide
    · intro j _
      omega
  have hd_eq : dedentChars (splitNL s) a b =
      lineStartOf (splitNL s) a b - pyFind3 ((splitNL s).getD a []) := by
    unfold dedentChars
    rw [max_eq_left hm_nonneg]
  have hm_le : ∀ i, a < i → i < b →
      lineStartOf (splitNL s) a b ≤ ((leadWS ((splitNL s).getD i []) : Nat) : Int) := by
    intro i h1 h2
    unfold lineStartOf
    exact foldl_min_le_mem _ _ _ i (mem_pyRange.2 ⟨by omega, h2⟩)
  constructor
  · intro i h1 h2
    have := hm_le i h1 h2
    rw [hd_eq]
    omega
  · have hbr : lineStartOf (splitNL s) a b = (pyRange (a + 1) b).foldl
        (fun acc x => min acc ((leadWS ((splitNL s).getD x []) : Nat) : Int)) maxsize := rfl
    rcases foldl_min_attains (fun x => ((leadWS ((splitNL s).getD x []) : Nat) : Int))
        (pyRange (a + 1) b) maxsize with hM | ⟨j, hj, hjeq⟩
    · have h1 : lineStartOf (splitNL s) a b ≤
          ((leadWS ((splitNL s).getD (a + 1) []) : Nat) : Int) :=
        hm_le (a + 1) (by omega) hbody
      have h2 : ((leadWS ((splitNL s).getD (a + 1) []) : Nat) : Int) ≤ maxsize := by
        have hml := hlen _ (getD_mem_of_lt (splitNL s) (a + 1) (by omega))
        have hws := leadWS_le_length ((splitNL s).getD (a + 1) [])
        omega
      have hmm : lineStartOf (splitNL s) a b = maxsize := by
        rw [hbr]
        exact hM
      refine ⟨a + 1, by omega, hbody, ?_⟩
      rw [hd_eq]
      omega
    · have hjm := mem_pyRange.1 hj
      refine ⟨j, by omega, by omega, ?_⟩
      rw [hd_eq, hbr, hjeq]

/-- C3 (witness): the amended minimum property evaluated on a concrete
two-line body. -/
theorem c3_witness :
    dedentChars (splitNL "```\n  x\n   y\n```".data) 0 3 ≤
      ((leadWS ((splitNL "```\n  x\n   y\n```".data).getD 1 []) : Nat) : Int) -
        pyFind3 ((splitNL "```\n  x\n   y\n```".data).getD 0 []) :=
  (c3_claim "```\n  x\n   y\n```".data 0 3 (by decide) (by decide) (by decide)).1
    1 (by decide) (by decide)

/-- C4 (confirmed): `dedent_code` preserves the number of newline-separated
lines of its input. -/
theorem c4_claim (s : List Char) :
    (splitNL (dedent_code s)).length = (splitNL s).length := by
  rw [splitNL_dedent_code]
  exact dedentLines_length _

/-- C5 (confirmed): `dedent_code` only removes leading characters of body
lines strictly inside a recognized span: for every recognized span the
output's fence lines equal the input's, every line outside all spans is
unchanged, and every output line is a suffix of the corresponding input
line. -/
theorem c5_claim (s : List Char) :
    (∀ p ∈ findCodeBlocks (splitNL s),
      (splitNL (dedent_code s)).get? p.1 = (splitNL s).get? p.1 ∧
      (splitNL (dedent_code s)).get? p.2 = (splitNL s).get? p.2) ∧
    (∀ i, (∀ p ∈ findCodeBlocks (splitNL s), ¬(p.1 < i ∧ i < p.2)) →
      (splitNL (dedent_code s)).get? i = (splitNL s).get? i) ∧
    (∀ i, ((splitNL (dedent_code s)).getD i []).IsSuffix ((splitNL s).getD i [])) := by
  rw [splitNL_dedent_code]
  refine ⟨?_, ?_, ?_⟩
  · intro p hp
    have h1 := findCodeBlocks_mem_markers (splitNL s) p hp
    exact ⟨dedentLines_frame _ p.1 (findCodeBlocks_marker_not_inner _ p.1 h1.1),
      dedentLines_frame _ p.2 (findCodeBlocks_marker_not_inner _ p.2 h1.2)⟩
  · intro i h
    exact dedentLines_frame _ i h
  · intro i
    exact dedentLines_getD_suffix _ i

/-- C5 (witness): the opening fence of the span of `c1input` is unchanged. -/
theorem c5_witness :
    (splitNL (dedent_code c1input)).get? 0 = (splitNL c1input).get? 0 :=
  ((c5_claim c1input).1 (0, 2) (by decide)).1

/-- C6 (confirmed): the fence markers are paired by strict alternation in
document order (`pairUp` of the marker index list); with an odd number of
markers the last marker belongs to no span and every line from it onward is
unchanged; with exactly one marker the input is returned unchanged. -/
theorem c6_claim (s : List Char) :
    (findCodeBlocks (splitNL s) = pairUp (markersAux (splitNL s) 0)) ∧
    ((markersAux (splitNL s) 0).length % 2 = 1 →
      ∀ m, (markersAux (splitNL s) 0).getLast? = some m →
        (∀ p ∈ findCodeBlocks (splitNL s), p.1 ≠ m ∧ p.2 ≠ m) ∧
        (∀ i, m ≤ i → (splitNL (dedent_code s)).get? i = (splitNL s).get? i)) ∧
    ((markersAux (splitNL s) 0).length = 1 → dedent_code s = s) := by
  refine ⟨findCodeBlocks_eq_pairUp _, ?_, ?_⟩
  · intro hodd m hlast
    have hgt : ∀ p ∈ findCodeBlocks (splitNL s), p.2 < m := by
      intro p hp
      rw [findCodeBlocks_eq_pairUp] at hp
      exact pairUp_last_gt _ (markersAux_pairwise _ 0) hodd m hlast p hp
    constructor
    · intro p hp
      have h1 := hgt p hp
      have h2 := findCodeBlocks_lt _ p hp
      exact ⟨by omega, by omega⟩
    · intro i hi
      rw [splitNL_dedent_code]
      apply dedentLines_frame
      intro p hp hcon
      have := hgt p hp
      omega
  · intro hone
    have hM : ∃ a, markersAux (splitNL s) 0 = [a] := by
      cases hMc : markersAux (splitNL s) 0 with
      | nil => rw [hMc] at hone; simp at hone
      | cons a t =>
        cases t with
        | nil => exact ⟨a, rfl⟩
        | cons b t2 => rw [hMc] at hone; simp at hone
    obtain ⟨a, ha⟩ := hM
    have hfcb : findCodeBlocks (splitNL s) = [] := by
      rw [findCodeBlocks_eq_pairUp, ha]
      rfl
    show joinNL (dedentLines (splitNL s)) = s
    unfold dedentLines
    rw [hfcb]
    simp only [List.foldl_nil]
    exact joinNL_splitNL s

/-- C6 (witness): a single opening fence with no closing fence leaves the
input unchanged. -/
theorem c6_witness : dedent_code "```\nab".data = "```\nab".data :=
  (c6_claim "```\nab".data).2.2 (by decide)

/-- C7 (confirmed): an input containing no triple-backtick substring is
returned unchanged by `dedent_code`. -/
theorem c7_claim (s : List Char) (h : hasTriple s = false) : dedent_code s = s := by
  have hlines : ∀ l ∈ splitNL s, hasTriple l = false := by
    intro l hl
    by_contra hc
    rw [Bool.not_eq_false] at hc
    have hj := hasTriple_joinNL (splitNL s) l hl hc
    rw [joinNL_splitNL, h] at hj
    simp at hj
  have hM := markersAux_nil_of_no_triple (splitNL s) 0 hlines
  have hfcb : findCodeBlocks (splitNL s) = [] := by
    rw [findCodeBlocks_eq_pairUp, hM]
    rfl
  show joinNL (dedentLines (splitNL s)) = s
  unfold dedentLines
  rw [hfcb]
  simp only [List.foldl_nil]
  exact joinNL_splitNL s

/-- C7 (witness): evaluated on a concrete fenceless input. -/
theorem c7_witness : dedent_code "  hello\nworld".data = "  hello\nworld".data :=
  c7_claim "  hello\nworld".data (by decide)

theorem minLoopOpt_eq (L : List (List Char)) : ∀ (idxs : List Nat) (acc : Int),
    (∀ i ∈ idxs, i < L.length) →
    minLoopOpt L idxs acc =
      some (idxs.foldl (fun a i => min a ((leadWS (L.getD i []) : Nat) : Int)) acc)
  | [], acc, _ => rfl
  | i :: rest, acc, h => by
    have hi : i < L.length := h i (List.mem_cons_self _ _)
    cases hg : L.get? i with
    | none =>
      rw [List.get?_eq_none] at hg
      omega
    | some l =>
      have hD : L.getD i [] = l := by
        rw [List.getD_eq_get?, hg]
        rfl
      simp only [minLoopOpt, hg, List.foldl_cons, hD]
      exact minLoopOpt_eq L rest _ (fun j hj => h j (List.mem_cons_of_mem _ hj))

theorem setLoopOpt_spec (d : Int) : ∀ (idxs : List Nat) (L : List (List Char)),
    List.Pairwise (· < ·) idxs → (∀ i ∈ idxs, i < L.length) →
    ∃ R, setLoopOpt L d idxs = some R ∧ R.length = L.length ∧
      (∀ j, R.get? j = if j ∈ idxs then (L.get? j).map (fun l => pySliceFrom l d)
        else L.get? j)
  | [], L, _, _ => ⟨L, rfl, rfl, fun j => by simp⟩
  | i :: rest, L, hpw, h => by
    have hi : i < L.length := h i (List.mem_cons_self _ _)
    cases hg : L.get? i with
    | none =>
      rw [List.get?_eq_none] at hg
      omega
    | some l =>
      have hlen1 : (L.set i (pySliceFrom l d)).length = L.length := List.length_set L i _
      have hrest : ∀ j ∈ rest, j < (L.set i (pySliceFrom l d)).length := by
        rw [hlen1]
        exact fun j hj => h j (List.mem_cons_of_mem _ hj)
      obtain ⟨R, hR, hRlen, hRget⟩ := setLoopOpt_spec d rest (L.set i (pySliceFrom l d))
        (List.pairwise_cons.1 hpw).2 hrest
      refine ⟨R, ?_, by rw [hRlen, hlen1], ?_⟩
      · simp only [setLoopOpt, hg]
        exact hR
      · intro j
        rw [hRget j]
        by_cases hji : j = i
        · have hnr : j ∉ rest := by
            rw [hji]
            intro hcon
            exact absurd ((List.pairwise_cons.1 hpw).1 i hcon) (lt_irrefl i)
          rw [if_neg hnr, if_pos (by rw [hji]; exact List.mem_cons_self _ _), hji]
          rw [List.get?_set_eq, hg]
          rfl
        · by_cases hjr : j ∈ rest
          · rw [if_pos hjr, if_pos (List.mem_cons_of_mem _ hjr), List.get?_set_ne]
            omega
          · rw [if_neg hjr, if_neg (by
              intro hc
              rcases List.mem_cons.1 hc with hc' | hc'
              · exact hji hc'
              · exact hjr hc'), List.get?_set_ne]
            omega

theorem dedentBlockOpt_eq (L : List (List Char)) (a b : Nat)
    (ha : a < L.length) (hb : b ≤ L.length) :
    dedentBlockOpt L a b = some (dedentBlock L a b) := by
  cases hg : L.get? a with
  | none =>
    rw [List.get?_eq_none] at hg
    omega
  | some fl =>
    have hD : L.getD a [] = fl := by
      rw [List.getD_eq_get?, hg]
      rfl
    have hidx : ∀ i ∈ pyRange (a + 1) b, i < L.length := by
      intro i hi
      have := mem_pyRange.1 hi
      omega
    simp only [dedentBlockOpt, hg]
    rw [minLoopOpt_eq L _ maxsize hidx]
    have hdc : max ((pyRange (a + 1) b).foldl
        (fun acc i => min acc ((leadWS (L.getD i []) : Nat) : Int)) maxsize) 0 -
          pyFind3 fl = dedentChars L a b := by
      unfold dedentChars lineStartOf
      rw [hD]
    simp only [hdc]
    by_cases h0 : dedentChars L a b = 0
    · rw [if_pos h0]
      unfold dedentBlock
      rw [if_pos h0]
    · rw [if_neg h0]
      obtain ⟨R, hR, hRlen, hRget⟩ := setLoopOpt_spec (dedentChars L a b)
        (pyRange (a + 1) b) L (pyRange_pairwise _ _) hidx
      rw [hR]
      congr 1
      apply List.ext
      intro j
      rw [hRget j]
      by_cases hj : a < j ∧ j < b
      · rw [if_pos (mem_pyRange.2 ⟨by omega, hj.2⟩), dedentBlock_inside L a b j hj.1 hj.2]
      · rw [if_neg (by
          intro hc
          have := mem_pyRange.1 hc
          exact hj ⟨by omega, this.2⟩), dedentBlock_frame L a b j hj]

theorem foldOpt_eq : ∀ (ss : List (Nat × Nat)) (X : List (List Char)),
    (∀ p ∈ ss, p.1 < X.length ∧ p.2 ≤ X.length) →
    ss.foldl (fun acc p => acc.bind fun ls => dedentBlockOpt ls p.1 p.2) (some X) =
      some (ss.foldl (fun acc p => dedentBlock acc p.1 p.2) X)
  | [], X, _ => rfl
  | q :: rest, X, h => by
    have hq := h q (List.mem_cons_self _ _)
    simp only [List.foldl_cons, Option.some_bind]
    rw [dedentBlockOpt_eq X q.1 q.2 hq.1 hq.2]
    exact foldOpt_eq rest (dedentBlock X q.1 q.2) (fun p hp => by
      rw [dedentBlock_length]
      exact h p (List.mem_cons_of_mem _ hp))

/-- C8 (confirmed): `dedent_code` is total: with every list subscript of the
Python code modelled fallibly (`none` = `IndexError`), the computation never
fails and returns exactly the value of the total model, for every input
string. -/
theorem c8_claim (s : List Char) : dedentCodeOpt s = some (dedent_code s) := by
  unfold dedentCodeOpt dedentLinesOpt dedent_code dedentLines
  rw [foldOpt_eq]
  · rfl
  · intro p hp
    have := findCodeBlocks_bound (splitNL s) p hp
    exact ⟨this.1, by omega⟩

theorem tabCheck (res : String) :
    ((if res == "mostviewed" || res == "unanswered" || res == "latest" ||
        res == "unresolved" then res else "latest") = "mostviewed" ∨
     (if res == "mostviewed" || res == "unanswered" || res == "latest" ||
        res == "unresolved" then res else "latest") = "unanswered" ∨
     (if res == "mostviewed" || res == "unanswered" || res == "latest" ||
        res == "unresolved" then res else "latest") = "latest" ∨
     (if res == "mostviewed" || res == "unanswered" || res == "latest" ||
        res == "unresolved" then res else "latest") = "unresolved") := by
  by_cases h : (res == "mostviewed" || res == "unanswered" || res == "latest" ||
      res == "unresolved") = true
  · rw [if_pos h]
    simp only [Bool.or_eq_true, beq_iff_eq] at h
    tauto
  · rw [if_neg h]
    right
    right
    left
    rfl

theorem tabCheck2 (res : String)
    (h : res ∉ (["mostviewed", "unanswered", "latest", "unresolved"] : List String)) :
    (if res == "mostviewed" || res == "unanswered" || res == "latest" ||
        res == "unresolved" then res else "latest") = "latest" := by
  simp only [List.mem_cons, List.not_mem_nil, or_false, not_or] at h
  rw [if_neg]
  intro hc
  simp only [Bool.or_eq_true, beq_iff_eq] at hc
  tauto

/-- C9 (confirmed): `get_request_tab` always returns an element of
`{mostviewed, unanswered, latest, unresolved}`, and returns `latest`
whenever the `tab` parameter is absent or carries a value outside that
set. -/
theorem c9_claim (req : HttpRequest) :
    (get_request_tab req = "mostviewed" ∨ get_request_tab req = "unanswered" ∨
      get_request_tab req = "latest" ∨ get_request_tab req = "unresolved") ∧
    ((∀ p ∈ req.GET, p.1 ≠ "tab") → get_request_tab req = "latest") ∧
    ((∀ p ∈ req.GET, p.1 = "tab" →
        p.2 ∉ (["mostviewed", "unanswered", "latest", "unresolved"] : List String)) →
      get_request_tab req = "latest") := by
  refine ⟨?_, ?_, ?_⟩
  · cases hp : get_request_param req "tab" (some "latest") with
    | none =>
      right; right; left
      simp [get_request_tab, hp]
    | some res =>
      simp only [get_request_tab, hp]
      exact tabCheck res
  · intro habs
    have hp : get_request_param req "tab" (some "latest") = some "latest" := by
      unfold get_request_param
      by_cases hE : req.GET.isEmpty
      · rw [if_pos hE]
      · rw [if_neg hE]
        have hfind : req.GET.reverse.find? (fun p => p.1 == "tab") = none := by
          rw [List.find?_eq_none]
          intro p hpm
          have hmem : p ∈ req.GET := List.mem_reverse.1 hpm
          simp only [beq_iff_eq]
          exact habs p hmem
        rw [hfind]
    simp [get_request_tab, hp]
  · intro hout
    cases hp : get_request_param req "tab" (some "latest") with
    | none =>
      simp only [get_request_tab, hp]
    | some res =>
      simp only [get_request_tab, hp]
      unfold get_request_param at hp
      by_cases hE : req.GET.isEmpty
      · rw [if_pos hE] at hp
        have : res = "latest" := by
          injection hp with h
          exact h.symm
        subst this
        exact ite_self _
      · rw [if_neg hE] at hp
        cases hf : req.GET.reverse.find? (fun p => p.1 == "tab") with
        | none =>
          rw [hf] at hp
          have : res = "latest" := by
            injection hp with h
            exact h.symm
          subst this
          exact ite_self _
        | some q =>
          rw [hf] at hp
          have hres : res = q.2 := by
            injection hp with h
            exact h.symm
          have hqmem : q ∈ req.GET := List.mem_reverse.1 (List.mem_of_find?_eq_some hf)
          have hqtab : q.1 = "tab" := by
            have := List.find?_some hf
            simpa [beq_iff_eq] using this
          subst hres
          exact tabCheck2 q.2 (hout q hqmem hqtab)

/-- C9 (witness): a request whose `tab` value is outside the set yields
`latest`. -/
theorem c9_witness : get_request_tab ⟨[("tab", "zzz")]⟩ = "latest" :=
  (c9_claim ⟨[("tab", "zzz")]⟩).2.2 (by decide)

/-- C10 (confirmed): `humanize_number` maps `None` to the empty string,
returns the integer unchanged for `0 ≤ value ≤ 1000`, and produces the
`k`/`m`/`B` abbreviations exactly for the ranges `(1000, 10^6]`,
`(10^6, 10^9]` and `(10^9, ∞)` respectively — so the exact boundary values
`1000`, `10^6` and `10^9` never trigger their own tier. -/
theorem c10_claim (v : Int) :
    humanize_number none = HumanizedValue.empty ∧
    (0 ≤ v → v ≤ 1000 → humanize_number (some v) = HumanizedValue.intVal v) ∧
    (1000 < v → v ≤ 1000000 →
      humanize_number (some v) = HumanizedValue.kVal (Int.fdiv v 100)) ∧
    (1000000 < v → v ≤ 1000000000 →
      humanize_number (some v) = HumanizedValue.mVal (Int.fdiv v 100000)) ∧
    (1000000000 < v →
      humanize_number (some v) = HumanizedValue.bVal (Int.fdiv v 100000000)) ∧
    (∀ k, humanize_number (some v) = HumanizedValue.kVal k → 1000 < v ∧ v ≤ 1000000) ∧
    (∀ k, humanize_number (some v) = HumanizedValue.mVal k → 1000000 < v ∧ v ≤ 1000000000) ∧
    (∀ k, humanize_number (some v) = HumanizedValue.bVal k → 1000000000 < v) := by
  refine ⟨rfl, ?_, ?_, ?_, ?_, ?_, ?_, ?_⟩
  · intro h1 h2
    simp only [humanize_number]
    rw [if_neg (by omega), if_neg (by omega), if_neg (by omega)]
  · intro h1 h2
    simp only [humanize_number]
    rw [if_neg (by omega), if_neg (by omega), if_pos (by omega)]
  · intro h1 h2
    simp only [humanize_number]
    rw [if_neg (by omega), if_pos (by omega)]
  · intro h1
    simp only [humanize_number]
    rw [if_pos (by omega)]
  · intro k hk
    simp only [humanize_number] at hk
    by_cases h1 : v > 1000000000
    · rw [if_pos h1] at hk
      exact absurd hk (by simp)
    · rw [if_neg h1] at hk
      by_cases h2 : v > 1000000
      · rw [if_pos h2] at hk
        exact absurd hk (by simp)
      · rw [if_neg h2] at hk
        by_cases h3 : v > 1000
        · exact ⟨h3, by omega⟩
        · rw [if_neg h3] at hk
          exact absurd hk (by simp)
  · intro k hk
    simp only [humanize_number] at hk
    by_cases h1 : v > 1000000000
    · rw [if_pos h1] at hk
      exact absurd hk (by simp)
    · rw [if_neg h1] at hk
      by_cases h2 : v > 1000000
      · exact ⟨h2, by omega⟩
      · rw [if_neg h2] at hk
        by_cases h3 : v > 1000
        · rw [if_pos h3] at hk
          exact absurd hk (by simp)
        · rw [if_neg h3] at hk
          exact absurd hk (by simp)
  · intro k hk
    simp only [humanize_number] at hk
    by_cases h1 : v > 1000000000
    · exact h1
    · rw [if_neg h1] at hk
      by_cases h2 : v > 1000000
      · rw [if_pos h2] at hk
        exact absurd hk (by simp)
      · rw [if_neg h2] at hk
        by_cases h3 : v > 1000
        · rw [if_pos h3] at hk
          exact absurd hk (by simp)
        · rw [if_neg h3] at hk
          exact absurd hk (by simp)

/-- C10 (witness): the exact value `10^6` falls in the `k` tier, not `m`. -/
theorem c10_witness :
    humanize_number (some 1000000) = HumanizedValue.kVal (Int.fdiv 1000000 100) :=
  (c10_claim 1000000).2.2.1 (by decide) (by decide)

